import Mathlib

/-!
Verification of the conversational search assistant in `main.py`.

Python strings are modelled as `List Char`.  Each definition below is a
direct translation of the corresponding Python function; machine-level
details that matter (the float threshold in `truncate_search_results`)
are modelled exactly.
-/

set_option autoImplicit false

abbrev Text := List Char

/-- The apostrophe character, U+0027. -/
def apos : Char := Char.ofNat 39

/-- Python `str.lstrip()` restricted to whitespace. -/
def lstrip (l : Text) : Text := l.dropWhile Char.isWhitespace

/-- Python `str.strip()`: drop whitespace at both ends. -/
def strip (l : Text) : Text :=
  ((lstrip l).reverse.dropWhile Char.isWhitespace).reverse

/-- Helper for `splitDot`: returns the fragment before the first dot and the
list of remaining fragments, so that the split is always non-empty. -/
def splitDotAux : Text → Text × List Text
  | [] => ([], [])
  | c :: cs =>
    let r := splitDotAux cs
    if c = '.' then ([], r.1 :: r.2) else (c :: r.1, r.2)

/-- Python `s.split('.')` (always returns at least one fragment). -/
def splitDot (l : Text) : List Text :=
  (splitDotAux l).1 :: (splitDotAux l).2

/-- Python `'. '.join(xs)`. -/
def joinDotSpace : List Text → Text
  | [] => []
  | [s] => s
  | s :: rest => s ++ '.' :: ' ' :: joinDotSpace rest

/-- The local `sentences` list of `extract_key_info` in `main.py`:
`[s.strip() for s in search_result.split('.') if len(s.strip()) > 20]`. -/
def sentences (search_result : Text) : List Text :=
  ((splitDot search_result).map strip).filter (fun s => 20 < s.length)

/-- Translation of `extract_key_info` from `main.py`. -/
def extract_key_info (search_result : Text) : Text :=
  let key_sentences := (sentences search_result).take 5
  if key_sentences ≠ [] then joinDotSpace key_sentences ++ ['.']
  else search_result.take 500

/-- Version of the condenser following the claim's words, which say that
fragments of length at least 20 qualify (the source keeps only fragments of
stripped length strictly greater than 20). -/
def extract_key_info_claim (search_result : Text) : Text :=
  let key_sentences :=
    (((splitDot search_result).map strip).filter (fun s => 20 ≤ s.length)).take 5
  if key_sentences ≠ [] then joinDotSpace key_sentences ++ ['.']
  else search_result.take 500

/-- Python `"..."`. -/
def ellipsis : Text := ("...").toList

/-- Position of the last occurrence of `c`, `none` when absent; this is
Python `str.rfind` with `-1` rendered as `none`. -/
def rfindPos (c : Char) : Text → Option Nat
  | [] => none
  | a :: l =>
    match rfindPos c l with
    | some p => some (p + 1)
    | none => if a = c then some 0 else none

/-- Numerator of the IEEE-754 binary64 number nearest to 0.7, whose exact
value is `sevenTenthsNum / 2 ^ 52`; this is the value Python uses for the
literal `0.7`. -/
def sevenTenthsNum : Nat := 3152519739159347

/-- Binary digit count with explicit fuel, so that it reduces by plain
evaluation; for positive v and fuel at least v it equals the floor base-2
logarithm plus one. -/
def bitLenAux : Nat → Nat → Nat
  | 0, _ => 0
  | fuel + 1, v => if v = 0 then 0 else bitLenAux fuel (v / 2) + 1

/-- Number of binary digits of v. -/
def bitLen (v : Nat) : Nat := bitLenAux v v

/-- Round a natural number to 53 significant bits with ties to even.  Used
to realise the IEEE round-to-nearest step of the double multiplication in
`truncate_search_results`. -/
def roundSig53 (v : Nat) : Nat :=
  if v < 2 ^ 53 then v
  else
    let drop := bitLen v - 53
    let q := v / 2 ^ drop
    let r := v % 2 ^ drop
    let half := 2 ^ (drop - 1)
    let q' := if half < r then q + 1 else if r < half then q else if q % 2 = 0 then q else q + 1
    q' * 2 ^ drop

/-- Python comparison `last_period > max_chars * 0.7`: the right-hand side
is the correctly rounded double product of `max_chars` with the double
nearest 0.7 (exact value `roundSig53 (max_chars * sevenTenthsNum) / 2 ^ 52`),
and Python compares the integer with the float exactly.  Exponent overflow
of the product, which needs `max_chars` beyond 2.5e308, is not modelled. -/
def gtPoint7 (last_period max_chars : Nat) : Bool :=
  decide (roundSig53 (max_chars * sevenTenthsNum) < last_period * 2 ^ 52)

/-- Translation of `truncate_search_results` from `main.py`.  The `none`
branch of `rfind` is Python's `-1`, for which the threshold comparison is
always false, so both fall through to the ellipsis branch. -/
def truncate_search_results (search_result : Text) (max_chars : Nat) : Text :=
  if search_result.length ≤ max_chars then search_result
  else
    let truncated := search_result.take max_chars
    match rfindPos '.' truncated with
    | some last_period =>
      if gtPoint7 last_period max_chars then truncated.take (last_period + 1)
      else truncated ++ ellipsis
    | none => truncated ++ ellipsis

/-- Version of the truncation utility following the claim's words: prefer
the cut at the last dot exactly when its index lies strictly within the
final 30% of the truncation window, that is when `10 * index > 7 * max_chars`
holds over the rationals. -/
def truncate_search_results_claim (search_result : Text) (max_chars : Nat) : Text :=
  if search_result.length ≤ max_chars then search_result
  else
    let truncated := search_result.take max_chars
    match rfindPos '.' truncated with
    | some last_period =>
      if 7 * max_chars < 10 * last_period then truncated.take (last_period + 1)
      else truncated ++ ellipsis
    | none => truncated ++ ellipsis

/-- The last occurrence of the dot in `w` is at index `p`. -/
def lastPeriodAt (w : Text) (p : Nat) : Prop :=
  p < w.length ∧ w.getD p ' ' = '.' ∧ ∀ q, q < w.length → p < q → w.getD q ' ' ≠ '.'

instance (w : Text) (p : Nat) : Decidable (lastPeriodAt w p) :=
  inferInstanceAs (Decidable (p < w.length ∧ w.getD p ' ' = '.' ∧
    ∀ q, q < w.length → p < q → w.getD q ' ' ≠ '.'))

inductive Role
  | user
  | assistant

/-- A message as `chatbot` may receive it: an object exposing textual
content (the langchain message classes), a mapping with string fields, or
any other value carried together with its `str` rendering. -/
inductive PyMsg
  | obj (role : Role) (content : Text)
  | dict (entries : List (Text × Text))
  | raw (rendering : Text)

/-- Python `AIMessage(content=c)`. -/
def AIMessage (content : Text) : PyMsg := PyMsg.obj Role.assistant content

/-- Python `dict.get` on a string-keyed mapping (first matching key). -/
def dictGet : List (Text × Text) → Text → Option Text
  | [], _ => none
  | e :: rest, key => if e.1 = key then some e.2 else dictGet rest key

/-- The user-question extraction of `chatbot`: `hasattr(m, "content")`
first, then `isinstance(m, dict)` with `m.get("content", "")`, else
`str(m)`. -/
def extractQuestion : PyMsg → Text
  | PyMsg.obj _ content => content
  | PyMsg.dict entries => (dictGet entries (("content").toList)).getD []
  | PyMsg.raw rendering => rendering

/-- Outcome of a call to an external collaborator: a value, or a raised
exception. -/
inductive CallResult (α : Type)
  | ok (val : α)
  | err

/-- A language-model response: either an object with a content field, or
any other value carried with its `str` rendering; this mirrors
`getattr(lc_response, "content", str(lc_response))`. -/
inductive LlmResp
  | withContent (content : Text)
  | other (rendering : Text)

/-- Content extraction from the model response. -/
def respContent : LlmResp → Text
  | LlmResp.withContent c => c
  | LlmResp.other r => r

/-- The static greeting emitted on an empty conversation. -/
def greeting : Text :=
  ("Hi! Ask me anything and I").toList ++ apos :: ("ll search for the latest information.").toList

/-- The literal fallback substituted when the search call raises. -/
def searchFallback : Text := ("Search temporarily unavailable.").toList

/-- The literal fallback substituted when the model call raises. -/
def llmFallback : Text :=
  ("I encountered an error generating the response. Please try rephrasing your question.").toList

/-- Opening fixed part of the f-string system prompt. -/
def promptPre : Text :=
  ("Based on the search results below, provide a concise, well-structured answer to the user").toList
    ++ apos :: ("s question.\n\nSEARCH RESULTS:\n").toList

/-- Middle fixed part of the f-string system prompt. -/
def promptMid : Text := ("\n\nUSER QUESTION: ").toList

/-- Closing fixed part of the f-string system prompt. -/
def promptSuf : Text :=
  ("\n\nInstructions:\n- Keep response under 300 words\n- Focus on the most recent and relevant information\n- Use clear, structured formatting\n- If search results are limited, acknowledge this\n").toList

/-- The f-string system prompt of `chatbot`. -/
def buildPrompt (optimized_search_result user_question : Text) : Text :=
  promptPre ++ optimized_search_result ++ promptMid ++ user_question ++ promptSuf

/-- Result of one `chatbot` invocation: the returned messages value, plus
an instrumentation record of the prompt built and the number of calls made
to the two external collaborators during the turn. -/
structure TurnResult where
  messages : List PyMsg
  prompt : Option Text
  searchCalls : Nat
  llmCalls : Nat

/-- The `optimized_search_result` binding of `chatbot`: the condensed
search text on success, the literal fallback when the search call raised. -/
def optimizedResult (searchRes : CallResult Text) : Text :=
  match searchRes with
  | CallResult.ok raw_search_result => extract_key_info raw_search_result
  | CallResult.err => searchFallback

/-- The `content` binding of `chatbot`: the extracted model response on
success, the literal fallback when the model call raised. -/
def llmContent (llmRes : CallResult LlmResp) : Text :=
  match llmRes with
  | CallResult.ok lc_response => respContent lc_response
  | CallResult.err => llmFallback

/-- Translation of `chatbot` from `main.py`.  The two external
collaborators are passed as call outcomes: `CallResult.err` means the call
raised, which the source catches at the call site. -/
def chatbot (searchRes : CallResult Text) (llmRes : CallResult LlmResp)
    (msgs : List PyMsg) : TurnResult :=
  match msgs.getLast? with
  | none => ⟨[AIMessage greeting], none, 0, 0⟩
  | some last_message =>
    let user_question := extractQuestion last_message
    let optimized_search_result := optimizedResult searchRes
    let system_prompt := buildPrompt optimized_search_result user_question
    let content := llmContent llmRes
    ⟨msgs ++ [AIMessage content], some system_prompt, 1, 1⟩

def c5input : Text := ("abcdefghijklmnopqrst").toList

def c6input : Text := ("aaaaaaaaaaaaaaaaaaaaaaaaa.").toList

def parisRaw : Text :=
  ("Paris is the capital of France. It has a population of over 2 million. The Eiffel Tower is located there.").toList

def parisQ : Text := ("What is the capital of France?").toList

def parisS1 : Text := ("Paris is the capital of France").toList

def parisS2 : Text := ("It has a population of over 2 million").toList

def parisS3 : Text := ("The Eiffel Tower is located there").toList

def bigS : Text := List.replicate 1799 'a' ++ '.' :: List.replicate 772 'b'

def c9winput : Text := ("abcd.efghij").toList

theorem splitDot_nil : splitDot [] = [[]] := rfl

theorem splitDot_cons_dot (cs : Text) : splitDot ('.' :: cs) = [] :: splitDot cs := by
  simp [splitDot, splitDotAux]

theorem splitDot_cons_of_ne (c : Char) (cs : Text) (h : ¬ c = '.') :
    splitDot (c :: cs) = (c :: (splitDotAux cs).1) :: (splitDotAux cs).2 := by
  simp [splitDot, splitDotAux, h]

theorem extract_key_info_pos (s : Text) (h : sentences s ≠ []) :
    extract_key_info s = joinDotSpace ((sentences s).take 5) ++ ['.'] := by
  obtain ⟨a, t, hat⟩ := List.exists_cons_of_ne_nil h
  have hk : (sentences s).take 5 ≠ [] := by
    rw [hat]
    simp
  simp [extract_key_info, hk]

theorem extract_key_info_neg (s : Text) (h : sentences s = []) :
    extract_key_info s = s.take 500 := by
  simp [extract_key_info, h]

/-- C5 counterexample: the source keeps only fragments of stripped length
strictly greater than 20, so a fragment of length exactly 20 does not
qualify even though the claim says fragments of length at least 20 do.  On
a 20-character dot-free input the code takes the raw fallback (no
terminator appended) while the claim-faithful condenser keeps the fragment
and appends the terminator. -/
theorem extract_key_info_threshold_cex :
    c5input.length = 20 ∧
    extract_key_info c5input = c5input ∧
    extract_key_info_claim c5input = c5input ++ ['.'] ∧
    extract_key_info c5input ≠ extract_key_info_claim c5input := by decide

/-- C5 (amended): `extract_key_info` splits on the dot, strips each
fragment, keeps fragments of stripped length strictly greater than 20 (so
fragments of length at least 21 qualify; length-20 fragments are
discarded), keeps at most the first 5 qualifying fragments, and rejoins
them with the result ending in the dot terminator; when no fragment
qualifies it returns the first 500 characters of the raw text verbatim.
It is total and always returns a string. -/
theorem extract_key_info_characterization (s : Text) :
    (sentences s ≠ [] →
      extract_key_info s = joinDotSpace ((sentences s).take 5) ++ ['.'] ∧
      ((sentences s).take 5).length ≤ 5 ∧
      (extract_key_info s).getLast? = some '.' ∧
      ∀ f ∈ sentences s, 20 < f.length) ∧
    (sentences s = [] → extract_key_info s = s.take 500) := by
  constructor
  · intro h
    refine ⟨extract_key_info_pos s h, ?_, ?_, ?_⟩
    · have := List.length_take 5 (sentences s)
      omega
    · rw [extract_key_info_pos s h]
      exact List.getLast?_concat _
    · intro f hf
      simpa using (List.mem_filter.mp hf).2
  · exact extract_key_info_neg s

/-- Witness instantiating the amended C5 characterization on a concrete
input with one qualifying sentence. -/
theorem extract_key_info_characterization_witness :
    extract_key_info (("abcdefghij klmnopqrstu").toList)
      = joinDotSpace ((sentences (("abcdefghij klmnopqrstu").toList)).take 5) ++ ['.'] :=
  ((extract_key_info_characterization (("abcdefghij klmnopqrstu").toList)).1 (by decide)).1

theorem dropWhile_dropWhile (P : Char → Bool) (l : Text) :
    (l.dropWhile P).dropWhile P = l.dropWhile P := by
  induction l with
  | nil => rfl
  | cons c cs ih =>
    by_cases h : P c
    · simp [List.dropWhile_cons, h, ih]
    · simp [List.dropWhile_cons, h]

theorem lstrip_of_append (p t y : Text) (hy : lstrip y = y) (hpt : p ++ t = y) :
    lstrip p = p := by
  cases p with
  | nil => rfl
  | cons a p' =>
    have hya : y = a :: (p' ++ t) := hpt.symm
    by_cases h : a.isWhitespace
    · exfalso
      have h1 : lstrip y = (p' ++ t).dropWhile Char.isWhitespace := by
        rw [hya]
        simp [lstrip, List.dropWhile_cons, h]
      have h2 : ((p' ++ t).dropWhile Char.isWhitespace).length ≤ (p' ++ t).length :=
        (List.dropWhile_suffix Char.isWhitespace).length_le
      rw [hy, hya] at h1
      have h3 := congrArg List.length h1
      rw [List.length_cons] at h3
      omega
    · simp [lstrip, List.dropWhile_cons, h]

theorem strip_extends_to_lstrip (l : Text) :
    ∃ t, strip l ++ t = lstrip l := by
  obtain ⟨h, hh⟩ := List.dropWhile_suffix (l := (lstrip l).reverse) Char.isWhitespace
  refine ⟨h.reverse, ?_⟩
  have h4 := congrArg List.reverse hh
  simpa [strip] using h4

theorem lstrip_lstrip (l : Text) : lstrip (lstrip l) = lstrip l :=
  dropWhile_dropWhile _ l

theorem lstrip_strip (l : Text) : lstrip (strip l) = strip l := by
  obtain ⟨t, ht⟩ := strip_extends_to_lstrip l
  exact lstrip_of_append _ t _ (lstrip_lstrip l) ht

theorem strip_idem (l : Text) : strip (strip l) = strip l := by
  conv_lhs => rw [strip]
  rw [lstrip_strip]
  rw [strip, List.reverse_reverse, dropWhile_dropWhile]

theorem mem_of_mem_strip (a : Char) (l : Text) (h : a ∈ strip l) : a ∈ l := by
  rw [strip, List.mem_reverse] at h
  have h2 := (List.dropWhile_suffix Char.isWhitespace).subset h
  rw [List.mem_reverse] at h2
  exact (List.dropWhile_suffix Char.isWhitespace).subset h2

theorem strip_cons_space (l : Text) : strip (' ' :: l) = strip l := by
  have h : (' ').isWhitespace = true := by decide
  simp [strip, lstrip, List.dropWhile_cons, h]

theorem not_dot_mem_splitDot (l : Text) : ∀ f ∈ splitDot l, '.' ∉ f := by
  induction l with
  | nil =>
    intro f hf
    rw [splitDot_nil, List.mem_singleton] at hf
    simp [hf]
  | cons c cs ih =>
    intro f hf
    by_cases hc : c = '.'
    · subst hc
      rw [splitDot_cons_dot] at hf
      rcases List.mem_cons.mp hf with h | h
      · simp [h]
      · exact ih f h
    · rw [splitDot_cons_of_ne c cs hc] at hf
      rcases List.mem_cons.mp hf with h | h
      · subst h
        intro hmem
        rcases List.mem_cons.mp hmem with h2 | h2
        · exact hc h2.symm
        · exact ih (splitDotAux cs).1 (List.mem_cons_self _ _) h2
      · exact ih f (List.mem_cons_of_mem _ h)

theorem splitDotAux_append_dot (s r : Text) (h : '.' ∉ s) :
    splitDotAux (s ++ '.' :: r) = (s, splitDot r) := by
  induction s with
  | nil => simp [splitDotAux, splitDot]
  | cons c s' ih =>
    have hc : ¬ c = '.' := fun he => h (he ▸ List.mem_cons_self c s')
    have ih2 := ih (fun hm => h (List.mem_cons_of_mem c hm))
    simp [splitDotAux, hc, ih2]

theorem splitDot_append_dot (s r : Text) (h : '.' ∉ s) :
    splitDot (s ++ '.' :: r) = s :: splitDot r := by
  rw [splitDot, splitDotAux_append_dot s r h]

theorem splitDot_join (qs : List Text) (q : Text)
    (h : ∀ e ∈ q :: qs, '.' ∉ e) :
    splitDot (joinDotSpace (q :: qs) ++ ['.'])
      = q :: (qs.map (fun t => ' ' :: t) ++ [[]]) := by
  induction qs generalizing q with
  | nil =>
    have hq : '.' ∉ q := h q (List.mem_cons_self _ _)
    simp [joinDotSpace, splitDot_append_dot q [] hq, splitDot_nil]
  | cons r qs' ih =>
    have hq : '.' ∉ q := h q (List.mem_cons_self _ _)
    have hrest : ∀ e ∈ r :: qs', '.' ∉ e := fun e he => h e (List.mem_cons_of_mem _ he)
    have hj : joinDotSpace (q :: r :: qs') ++ ['.']
        = q ++ '.' :: (' ' :: (joinDotSpace (r :: qs') ++ ['.'])) := by
      simp [joinDotSpace]
    rw [hj, splitDot_append_dot q _ hq]
    have ih2 := ih r hrest
    have hne : ¬ (' ' = '.') := by decide
    rw [splitDot_cons_of_ne ' ' _ hne]
    rw [splitDot] at ih2
    have h1 : (splitDotAux (joinDotSpace (r :: qs') ++ ['.'])).1 = r :=
      (List.cons_eq_cons.mp ih2).1
    have h2 : (splitDotAux (joinDotSpace (r :: qs') ++ ['.'])).2
        = qs'.map (fun t => ' ' :: t) ++ [[]] :=
      (List.cons_eq_cons.mp ih2).2
    rw [h1, h2]
    simp

theorem sentences_mem_strip (x e : Text) (he : e ∈ sentences x) : strip e = e := by
  have h1 := (List.mem_filter.mp he).1
  obtain ⟨f, hf, hfe⟩ := List.mem_map.mp h1
  rw [← hfe]
  exact strip_idem f

theorem sentences_mem_length (x e : Text) (he : e ∈ sentences x) : 20 < e.length := by
  simpa using (List.mem_filter.mp he).2

theorem sentences_mem_not_dot (x e : Text) (he : e ∈ sentences x) : '.' ∉ e := by
  have h1 := (List.mem_filter.mp he).1
  obtain ⟨f, hf, hfe⟩ := List.mem_map.mp h1
  intro hd
  rw [← hfe] at hd
  exact not_dot_mem_splitDot x f hf (mem_of_mem_strip '.' f hd)

theorem sentences_join (q : Text) (qs : List Text)
    (hstrip : ∀ e ∈ q :: qs, strip e = e)
    (hlen : ∀ e ∈ q :: qs, 20 < e.length)
    (hdot : ∀ e ∈ q :: qs, '.' ∉ e) :
    sentences (joinDotSpace (q :: qs) ++ ['.']) = q :: qs := by
  rw [sentences, splitDot_join qs q hdot]
  have hmapqs : qs.map (fun t => strip (' ' :: t)) = qs := by
    have h1 : ∀ t ∈ qs, strip (' ' :: t) = id t := by
      intro t ht
      rw [strip_cons_space, hstrip t (List.mem_cons_of_mem _ ht)]
      rfl
    rw [List.map_congr_left h1, List.map_id]
  have hmap : ((q :: (qs.map (fun t => ' ' :: t) ++ [[]])).map strip) = q :: (qs ++ [[]]) := by
    rw [List.map_cons, List.map_append, List.map_map, hstrip q (List.mem_cons_self _ _)]
    have h2 : (strip ∘ fun t => ' ' :: t) = fun t => strip (' ' :: t) := rfl
    rw [h2, hmapqs]
    rfl
  rw [hmap]
  rw [List.filter_cons_of_pos (by simpa using hlen q (List.mem_cons_self _ _))]
  rw [List.filter_append]
  rw [List.filter_eq_self.mpr (fun e he => by simpa using hlen e (List.mem_cons_of_mem _ he))]
  simp

theorem length_dropWhile_append_le (P : Char → Bool) (h s : Text) :
    (s.dropWhile P).length ≤ ((h ++ s).dropWhile P).length := by
  induction h with
  | nil => simp
  | cons a h' ih =>
    by_cases ha : P a
    · rw [List.cons_append, List.dropWhile_cons, ha]
      simpa using ih
    · rw [List.cons_append, List.dropWhile_cons, Bool.of_not_eq_true ha]
      simp only [if_false, Bool.false_eq_true]
      calc (s.dropWhile P).length ≤ s.length := (List.dropWhile_suffix P).length_le
        _ ≤ (a :: (h' ++ s)).length := by simp; omega

theorem lstrip_extend_mono (p t : Text) : ∃ u, lstrip p ++ u = lstrip (p ++ t) := by
  induction p with
  | nil => exact ⟨lstrip t, by simp [lstrip]⟩
  | cons c p' ih =>
    by_cases hc : c.isWhitespace
    · obtain ⟨u, hu⟩ := ih
      refine ⟨u, ?_⟩
      simpa [lstrip, List.dropWhile_cons, hc] using hu
    · refine ⟨t, ?_⟩
      simp [lstrip, List.dropWhile_cons, hc]

theorem strip_length_le_extend (p t : Text) :
    (strip p).length ≤ (strip (p ++ t)).length := by
  obtain ⟨u, hu⟩ := lstrip_extend_mono p t
  have h1 : (lstrip (p ++ t)).reverse = u.reverse ++ (lstrip p).reverse := by
    rw [← hu, List.reverse_append]
  rw [strip, strip, List.length_reverse, List.length_reverse, h1]
  exact length_dropWhile_append_le Char.isWhitespace u.reverse (lstrip p).reverse

theorem splitDot_take_structure (l : Text) (k : Nat) :
    ∃ pre q post p t, splitDot l = pre ++ q :: post ∧
      splitDot (l.take k) = pre ++ [p] ∧ p ++ t = q := by
  induction l generalizing k with
  | nil =>
    exact ⟨[], [], [], [], [], by simp [splitDot_nil], by simp [splitDot_nil], rfl⟩
  | cons c cs ih =>
    cases k with
    | zero =>
      refine ⟨[], (splitDotAux (c :: cs)).1, (splitDotAux (c :: cs)).2, [],
        (splitDotAux (c :: cs)).1, rfl, by simp [splitDot_nil], rfl⟩
    | succ k' =>
      by_cases hc : c = '.'
      · subst hc
        obtain ⟨pre, q, post, p, t, h1, h2, h3⟩ := ih k'
        refine ⟨[] :: pre, q, post, p, t, ?_, ?_, h3⟩
        · rw [splitDot_cons_dot, h1]
          rfl
        · rw [List.take_succ_cons, splitDot_cons_dot, h2]
          rfl
      · obtain ⟨pre, q, post, p, t, h1, h2, h3⟩ := ih k'
        cases pre with
        | nil =>
          have h1x : (splitDotAux cs).1 :: (splitDotAux cs).2 = q :: post := by
            simpa [splitDot] using h1
          have h2x : (splitDotAux (cs.take k')).1 :: (splitDotAux (cs.take k')).2 = p :: [] := by
            simpa [splitDot] using h2
          have hq : (splitDotAux cs).1 = q := (List.cons_eq_cons.mp h1x).1
          have hpost : (splitDotAux cs).2 = post := (List.cons_eq_cons.mp h1x).2
          have hp : (splitDotAux (cs.take k')).1 = p := (List.cons_eq_cons.mp h2x).1
          have hrest : (splitDotAux (cs.take k')).2 = [] := (List.cons_eq_cons.mp h2x).2
          refine ⟨[], c :: q, post, c :: p, t, ?_, ?_, ?_⟩
          · rw [splitDot_cons_of_ne c cs hc, hq, hpost]
            rfl
          · rw [List.take_succ_cons, splitDot_cons_of_ne c _ hc, hp, hrest]
            rfl
          · rw [List.cons_append, h3]
        | cons g pre' =>
          have h1x : (splitDotAux cs).1 :: (splitDotAux cs).2 = g :: (pre' ++ q :: post) := by
            simpa [splitDot] using h1
          have h2x : (splitDotAux (cs.take k')).1 :: (splitDotAux (cs.take k')).2
              = g :: (pre' ++ [p]) := by
            simpa [splitDot] using h2
          have hg : (splitDotAux cs).1 = g := (List.cons_eq_cons.mp h1x).1
          have hrest1 : (splitDotAux cs).2 = pre' ++ q :: post := (List.cons_eq_cons.mp h1x).2
          have hg2 : (splitDotAux (cs.take k')).1 = g := (List.cons_eq_cons.mp h2x).1
          have hrest2 : (splitDotAux (cs.take k')).2 = pre' ++ [p] := (List.cons_eq_cons.mp h2x).2
          refine ⟨(c :: g) :: pre', q, post, p, t, ?_, ?_, h3⟩
          · rw [splitDot_cons_of_ne c cs hc, hg, hrest1]
            rfl
          · rw [List.take_succ_cons, splitDot_cons_of_ne c _ hc, hg2, hrest2]
            rfl

theorem sentences_take_nil (l : Text) (k : Nat) (h : sentences l = []) :
    sentences (l.take k) = [] := by
  have hall : ∀ g ∈ splitDot l, ¬ 20 < (strip g).length := by
    intro g hg hlen
    have hmem : strip g ∈ sentences l :=
      List.mem_filter.mpr ⟨List.mem_map_of_mem strip hg, by simpa using hlen⟩
    rw [h] at hmem
    exact (List.not_mem_nil _) hmem
  rw [sentences, List.filter_eq_nil_iff]
  intro a ha
  simp only [decide_eq_true_eq]
  obtain ⟨f, hf, hfe⟩ := List.mem_map.mp ha
  obtain ⟨pre, q, post, p, t, h1, h2, h3⟩ := splitDot_take_structure l k
  rw [h2] at hf
  intro hlen
  rw [← hfe] at hlen
  rcases List.mem_append.mp hf with hf1 | hf1
  · have hmem : f ∈ splitDot l := by
      rw [h1]
      exact List.mem_append_left _ hf1
    exact hall f hmem hlen
  · have hfp : f = p := by simpa using hf1
    have hq : q ∈ splitDot l := by
      rw [h1]
      exact List.mem_append_right _ (List.mem_cons_self _ _)
    have hle : (strip f).length ≤ (strip q).length := by
      rw [hfp, ← h3]
      exact strip_length_le_extend p t
    exact hall q hq (by omega)

/-- C6: the Result Condenser is idempotent on text with at most 5
qualifying sentences: for every input whose list of qualifying sentences
(stripped dot-fragments of length strictly above the threshold) has at
most 5 elements, applying `extract_key_info` twice gives the same result
as applying it once. -/
theorem extract_key_info_idempotent (x : Text) (h : (sentences x).length ≤ 5) :
    extract_key_info (extract_key_info x) = extract_key_info x := by
  by_cases hx : sentences x = []
  · rw [extract_key_info_neg x hx]
    have h2 : sentences (x.take 500) = [] := sentences_take_nil x 500 hx
    rw [extract_key_info_neg _ h2]
    simp
  · have htake : (sentences x).take 5 = sentences x := List.take_of_length_le h
    have h1 : extract_key_info x = joinDotSpace (sentences x) ++ ['.'] := by
      rw [extract_key_info_pos x hx, htake]
    obtain ⟨q, qs, hqqs⟩ := List.exists_cons_of_ne_nil hx
    have h2 : sentences (joinDotSpace (sentences x) ++ ['.']) = sentences x := by
      rw [hqqs]
      exact sentences_join q qs
        (fun e he => sentences_mem_strip x e (hqqs ▸ he))
        (fun e he => sentences_mem_length x e (hqqs ▸ he))
        (fun e he => sentences_mem_not_dot x e (hqqs ▸ he))
    rw [h1, extract_key_info_pos _ (by rw [h2]; exact hx), h2, htake, ← h1]

/-- Witness instantiating the C6 idempotence theorem on a concrete input
with one qualifying sentence. -/
theorem extract_key_info_idempotent_witness :
    (sentences c6input).length ≤ 5 ∧
      extract_key_info (extract_key_info c6input) = extract_key_info c6input :=
  ⟨by decide, extract_key_info_idempotent c6input (by decide)⟩

theorem chatbot_concat_messages (searchRes : CallResult Text) (llmRes : CallResult LlmResp)
    (init : List PyMsg) (last : PyMsg) :
    (chatbot searchRes llmRes (init ++ [last])).messages
      = (init ++ [last]) ++ [AIMessage (llmContent llmRes)] := by
  simp [chatbot, List.getLast?_concat]

theorem chatbot_concat_prompt (searchRes : CallResult Text) (llmRes : CallResult LlmResp)
    (init : List PyMsg) (last : PyMsg) :
    (chatbot searchRes llmRes (init ++ [last])).prompt
      = some (buildPrompt (optimizedResult searchRes) (extractQuestion last)) := by
  simp [chatbot, List.getLast?_concat]

theorem chatbot_concat_calls (searchRes : CallResult Text) (llmRes : CallResult LlmResp)
    (init : List PyMsg) (last : PyMsg) :
    (chatbot searchRes llmRes (init ++ [last])).searchCalls = 1 ∧
      (chatbot searchRes llmRes (init ++ [last])).llmCalls = 1 := by
  constructor
  · simp [chatbot, List.getLast?_concat]
  · simp [chatbot, List.getLast?_concat]

/-- C1: invoking the chatbot on a non-empty conversation yields a
conversation exactly one message longer, obtained by appending a single
assistant message, whose last element therefore has role assistant; this
holds for every outcome of the search call and of the model call, so every
failure path still produces exactly one new assistant message. -/
theorem chatbot_appends_one_assistant (searchRes : CallResult Text)
    (llmRes : CallResult LlmResp) (msgs : List PyMsg) (h : msgs ≠ []) :
    ∃ c, (chatbot searchRes llmRes msgs).messages = msgs ++ [AIMessage c] ∧
      (chatbot searchRes llmRes msgs).messages.length = msgs.length + 1 ∧
      (chatbot searchRes llmRes msgs).messages.getLast? = some (AIMessage c) := by
  rcases List.eq_nil_or_concat msgs with rfl | ⟨init, last, rfl⟩
  · exact absurd rfl h
  · simp only [List.concat_eq_append]
    refine ⟨llmContent llmRes, chatbot_concat_messages _ _ _ _, ?_, ?_⟩
    · rw [chatbot_concat_messages]
      simp
    · rw [chatbot_concat_messages]
      exact List.getLast?_concat _

/-- Witness for C1 at a concrete one-message conversation with both
collaborators failing. -/
theorem chatbot_appends_one_assistant_witness :
    ∃ c, (chatbot CallResult.err CallResult.err [PyMsg.raw []]).messages
        = [PyMsg.raw []] ++ [AIMessage c] ∧
      (chatbot CallResult.err CallResult.err [PyMsg.raw []]).messages.length
        = [PyMsg.raw []].length + 1 ∧
      (chatbot CallResult.err CallResult.err [PyMsg.raw []]).messages.getLast?
        = some (AIMessage c) :=
  chatbot_appends_one_assistant CallResult.err CallResult.err [PyMsg.raw []] (by simp)

/-- C4: invoking the chatbot on an empty conversation returns exactly one
assistant message whose content is the static greeting, builds no prompt,
and makes zero calls to the search client and zero calls to the language
model client, whatever those collaborators would have returned. -/
theorem chatbot_empty_greeting (searchRes : CallResult Text) (llmRes : CallResult LlmResp) :
    chatbot searchRes llmRes [] = ⟨[AIMessage greeting], none, 0, 0⟩ := rfl

/-- C10: the chatbot never modifies existing messages: for every
conversation the returned messages are exactly the input messages, in
order, with a single assistant message appended, so the first `len(C)`
returned messages are the input conversation unchanged. -/
theorem chatbot_frame_preservation (searchRes : CallResult Text)
    (llmRes : CallResult LlmResp) (msgs : List PyMsg) :
    ∃ c, (chatbot searchRes llmRes msgs).messages = msgs ++ [AIMessage c] ∧
      (chatbot searchRes llmRes msgs).messages.take msgs.length = msgs := by
  rcases List.eq_nil_or_concat msgs with rfl | ⟨init, last, rfl⟩
  · exact ⟨greeting, rfl, rfl⟩
  · simp only [List.concat_eq_append]
    refine ⟨llmContent llmRes, chatbot_concat_messages _ _ _ _, ?_⟩
    rw [chatbot_concat_messages]
    exact List.take_left _ _

/-- C2: when the search call raises during a turn on a non-empty
conversation, the literal fallback string is substituted as the condensed
result, so the built prompt is the template instantiated with that literal
and contains it verbatim; the turn still completes by appending exactly
one assistant message, for either outcome of the model call, and the
function is total so no error propagates. -/
theorem chatbot_search_failure_fallback (llmRes : CallResult LlmResp)
    (msgs : List PyMsg) (h : msgs ≠ []) :
    (∃ q, (chatbot CallResult.err llmRes msgs).prompt = some (buildPrompt searchFallback q)) ∧
    (∀ pr, (chatbot CallResult.err llmRes msgs).prompt = some pr →
      ∃ u v, u ++ searchFallback ++ v = pr) ∧
    (∃ c, (chatbot CallResult.err llmRes msgs).messages = msgs ++ [AIMessage c] ∧
      (chatbot CallResult.err llmRes msgs).messages.getLast? = some (AIMessage c)) := by
  rcases List.eq_nil_or_concat msgs with rfl | ⟨init, last, rfl⟩
  · exact absurd rfl h
  · simp only [List.concat_eq_append]
    refine ⟨⟨extractQuestion last, ?_⟩, ?_, ⟨llmContent llmRes, chatbot_concat_messages _ _ _ _, ?_⟩⟩
    · rw [chatbot_concat_prompt]
      rfl
    · intro pr hpr
      rw [chatbot_concat_prompt] at hpr
      have hpr2 : buildPrompt (optimizedResult CallResult.err) (extractQuestion last) = pr :=
        Option.some.inj hpr
      refine ⟨promptPre, promptMid ++ extractQuestion last ++ promptSuf, ?_⟩
      rw [← hpr2]
      simp [buildPrompt, optimizedResult]
    · rw [chatbot_concat_messages]
      exact List.getLast?_concat _

/-- Witness for C2 at a concrete one-message conversation with the model
call succeeding. -/
theorem chatbot_search_failure_fallback_witness :
    ∃ q, (chatbot CallResult.err (CallResult.ok (LlmResp.withContent []))
        [PyMsg.obj Role.user []]).prompt = some (buildPrompt searchFallback q) :=
  (chatbot_search_failure_fallback (CallResult.ok (LlmResp.withContent []))
    [PyMsg.obj Role.user []] (by simp)).1

/-- C3: when the model call raises during a turn on a non-empty
conversation, the appended assistant message's content equals the literal
fallback instructing the user to rephrase, the turn still completes with
exactly that one assistant message appended, and the function is total so
no error propagates; this holds for either outcome of the search call. -/
theorem chatbot_llm_failure_fallback (searchRes : CallResult Text)
    (msgs : List PyMsg) (h : msgs ≠ []) :
    (chatbot searchRes CallResult.err msgs).messages = msgs ++ [AIMessage llmFallback] ∧
    (chatbot searchRes CallResult.err msgs).messages.getLast? = some (AIMessage llmFallback) := by
  rcases List.eq_nil_or_concat msgs with rfl | ⟨init, last, rfl⟩
  · exact absurd rfl h
  · simp only [List.concat_eq_append]
    constructor
    · rw [chatbot_concat_messages]
      rfl
    · rw [chatbot_concat_messages]
      exact List.getLast?_concat _

/-- Witness for C3 at a concrete one-message conversation with the search
call succeeding. -/
theorem chatbot_llm_failure_fallback_witness :
    (chatbot (CallResult.ok []) CallResult.err [PyMsg.raw []]).messages
      = [PyMsg.raw []] ++ [AIMessage llmFallback] :=
  (chatbot_llm_failure_fallback (CallResult.ok []) [PyMsg.raw []] (by simp)).1

/-- C8: the user-question extraction is total over the three supported
message shapes: an object exposing textual content yields that content, a
mapping with a content field yields that field, a mapping without a
content field yields the empty string, and any other raw value is coerced
to its textual rendering.  No shape can fail. -/
theorem extractQuestion_total_shapes :
    (∀ r c, extractQuestion (PyMsg.obj r c) = c) ∧
    (∀ entries v, dictGet entries (("content").toList) = some v →
      extractQuestion (PyMsg.dict entries) = v) ∧
    (∀ entries, dictGet entries (("content").toList) = none →
      extractQuestion (PyMsg.dict entries) = []) ∧
    (∀ s, extractQuestion (PyMsg.raw s) = s) := by
  refine ⟨fun r c => rfl, ?_, ?_, fun s => rfl⟩
  · intro entries v hv
    have hv3 : dictGet entries (['c', 'o', 'n', 't', 'e', 'n', 't'] : Text) = some v := hv
    simp [extractQuestion, hv3]
  · intro entries hn
    have hn3 : dictGet entries (['c', 'o', 'n', 't', 'e', 'n', 't'] : Text) = none := hn
    simp [extractQuestion, hn3]

/-- Witness for C8 applying the mapping-without-content case at the empty
mapping. -/
theorem extractQuestion_total_shapes_witness :
    extractQuestion (PyMsg.dict []) = [] :=
  extractQuestion_total_shapes.2.2.1 [] rfl

theorem paris_decomp :
    parisRaw = joinDotSpace [parisS1, parisS2, parisS3] ++ ['.'] := by rfl

theorem paris_sentences : sentences parisRaw = [parisS1, parisS2, parisS3] := by
  rw [paris_decomp]
  refine sentences_join parisS1 [parisS2, parisS3] ?_ ?_ ?_
  · intro e he
    simp only [List.mem_cons, List.not_mem_nil, or_false] at he
    rcases he with rfl | rfl | rfl <;> decide
  · intro e he
    simp only [List.mem_cons, List.not_mem_nil, or_false] at he
    rcases he with rfl | rfl | rfl <;> decide
  · intro e he
    simp only [List.mem_cons, List.not_mem_nil, or_false] at he
    rcases he with rfl | rfl | rfl <;> decide

theorem paris_condensed : extract_key_info parisRaw = parisRaw := by
  rw [extract_key_info_pos parisRaw (by rw [paris_sentences]; simp), paris_sentences]
  rfl

/-- C7: for the concrete Paris scenario the condensed result retains all
three sentences (each of length at least 20 characters, and there are at
most 5 of them), so the condensed text equals the raw search text; the
chatbot builds exactly the prompt instantiated with that condensed text
and the user question, and that prompt embeds the three sentences and the
question verbatim. -/
theorem paris_scenario :
    sentences parisRaw = [parisS1, parisS2, parisS3] ∧
    (20 ≤ parisS1.length ∧ 20 ≤ parisS2.length ∧ 20 ≤ parisS3.length) ∧
    (sentences parisRaw).length ≤ 5 ∧
    extract_key_info parisRaw = parisRaw ∧
    (∀ llmRes, (chatbot (CallResult.ok parisRaw) llmRes [PyMsg.obj Role.user parisQ]).prompt
        = some (buildPrompt parisRaw parisQ)) ∧
    (∃ u v, u ++ parisS1 ++ v = buildPrompt parisRaw parisQ) ∧
    (∃ u v, u ++ parisS2 ++ v = buildPrompt parisRaw parisQ) ∧
    (∃ u v, u ++ parisS3 ++ v = buildPrompt parisRaw parisQ) ∧
    (∃ u v, u ++ parisQ ++ v = buildPrompt parisRaw parisQ) := by
  refine ⟨paris_sentences, by decide, ?_, paris_condensed, ?_, ?_, ?_, ?_, ?_⟩
  · rw [paris_sentences]
    simp
  · intro llmRes
    have h := chatbot_concat_prompt (CallResult.ok parisRaw) llmRes [] (PyMsg.obj Role.user parisQ)
    simpa [optimizedResult, extractQuestion, paris_condensed] using h
  · exact ⟨promptPre,
      (". It has a population of over 2 million. The Eiffel Tower is located there.").toList
        ++ promptMid ++ parisQ ++ promptSuf, by rfl⟩
  · exact ⟨promptPre ++ ("Paris is the capital of France. ").toList,
      (". The Eiffel Tower is located there.").toList ++ promptMid ++ parisQ ++ promptSuf, by rfl⟩
  · exact ⟨promptPre
        ++ ("Paris is the capital of France. It has a population of over 2 million. ").toList,
      (".").toList ++ promptMid ++ parisQ ++ promptSuf, by rfl⟩
  · exact ⟨promptPre ++ parisRaw ++ promptMid, promptSuf, by rfl⟩

theorem rfindPos_spec (c : Char) (l : Text) :
    (rfindPos c l = none → ∀ q, q < l.length → l.getD q ' ' ≠ c) ∧
    (∀ p, rfindPos c l = some p →
      p < l.length ∧ l.getD p ' ' = c ∧
        ∀ q, q < l.length → p < q → l.getD q ' ' ≠ c) := by
  induction l with
  | nil =>
    constructor
    · intro _ q hq
      simp at hq
    · intro p hp
      simp [rfindPos] at hp
  | cons a l ih =>
    constructor
    · intro hn q hql
      simp only [rfindPos] at hn
      cases h : rfindPos c l with
      | some p =>
        rw [h] at hn
        exact absurd hn (by simp)
      | none =>
        rw [h] at hn
        by_cases hac : a = c
        · rw [if_pos hac] at hn
          exact absurd hn (by simp)
        · cases q with
          | zero => simpa using hac
          | succ q' =>
            have hq' := ih.1 h q' (by simpa using hql)
            simpa using hq'
    · intro p hp
      simp only [rfindPos] at hp
      cases h : rfindPos c l with
      | some p' =>
        rw [h] at hp
        have hpp : p = p' + 1 := (Option.some.inj hp).symm
        obtain ⟨h1, h2, h3⟩ := ih.2 p' h
        subst hpp
        refine ⟨by simpa using h1, by simpa using h2, ?_⟩
        intro q hql hq
        cases q with
        | zero => omega
        | succ q' =>
          have hq' := h3 q' (by simpa using hql) (by omega)
          simpa using hq'
      | none =>
        rw [h] at hp
        by_cases hac : a = c
        · rw [if_pos hac] at hp
          have hp0 : p = 0 := (Option.some.inj hp).symm
          subst hp0
          refine ⟨by simp, by simpa using hac, ?_⟩
          intro q hql hq
          cases q with
          | zero => omega
          | succ q' =>
            have hq' := ih.1 h q' (by simpa using hql)
            simpa using hq'
        · rw [if_neg hac] at hp
          exact absurd hp (by simp)

theorem rfindPos_of_lastPeriodAt (w : Text) (p : Nat) (h : lastPeriodAt w p) :
    rfindPos '.' w = some p := by
  obtain ⟨h1, h2, h3⟩ := h
  cases hr : rfindPos '.' w with
  | none => exact absurd h2 ((rfindPos_spec '.' w).1 hr p h1)
  | some p' =>
    obtain ⟨g1, g2, g3⟩ := (rfindPos_spec '.' w).2 p' hr
    rcases Nat.lt_trichotomy p p' with hlt | heq | hgt
    · exact absurd g2 (h3 p' g1 hlt)
    · rw [heq]
    · exact absurd h2 (g3 p h1 hgt)

theorem getLast_take_of_getD (w : Text) (p : Nat) (h1 : p < w.length)
    (h2 : w.getD p ' ' = '.') : (w.take (p + 1)).getLast? = some '.' := by
  rw [List.getLast?_eq_getElem? ]
  have hlen : (w.take (p + 1)).length = p + 1 := by
    rw [List.length_take]
    omega
  rw [hlen]
  simp only [Nat.add_sub_cancel]
  rw [List.getElem?_take, if_pos (Nat.lt_succ_self p), List.getElem?_eq_getElem h1]
  rw [List.getD_eq_getElem w ' ' h1] at h2
  rw [h2]

/-- C9 (amended): for every input string and character budget,
`truncate_search_results` returns the input unchanged when its length is
at most the budget; otherwise it cuts the input to the budget-sized window
and, writing p for the index of the last dot of the window, returns the
window cut immediately after that dot (so the cut ends with the
terminator, inclusive) when the Python float comparison
`p > max_chars * 0.7` holds, modelled exactly as the correctly rounded
binary64 product, and returns the hard cut with an ellipsis appended
otherwise, in particular whenever the window contains no dot.  For the
default budget 1500 the float comparison agrees with the exact final-30%
rule, but not for every budget, which is the correction to the claim. -/
theorem truncate_characterization (s : Text) (mc : Nat) :
    (s.length ≤ mc → truncate_search_results s mc = s) ∧
    (mc < s.length → ∀ p, lastPeriodAt (s.take mc) p →
      (gtPoint7 p mc = true →
        truncate_search_results s mc = (s.take mc).take (p + 1) ∧
          ((s.take mc).take (p + 1)).getLast? = some '.') ∧
      (gtPoint7 p mc = false →
        truncate_search_results s mc = s.take mc ++ ellipsis)) ∧
    (mc < s.length → (∀ q, q < (s.take mc).length → (s.take mc).getD q ' ' ≠ '.') →
      truncate_search_results s mc = s.take mc ++ ellipsis) := by
  refine ⟨?_, ?_, ?_⟩
  · intro h
    simp [truncate_search_results, h]
  · intro hlen p hlp
    have hnle : ¬ s.length ≤ mc := by omega
    have hr : rfindPos '.' (s.take mc) = some p := rfindPos_of_lastPeriodAt _ p hlp
    constructor
    · intro hgt
      refine ⟨?_, getLast_take_of_getD _ p hlp.1 hlp.2.1⟩
      simp only [truncate_search_results, if_neg hnle, hr, hgt, if_true]
    · intro hgt
      simp only [truncate_search_results, if_neg hnle, hr, hgt, Bool.false_eq_true,
        if_false]
  · intro hlen hnodot
    have hnle : ¬ s.length ≤ mc := by omega
    have hr : rfindPos '.' (s.take mc) = none := by
      cases hr2 : rfindPos '.' (s.take mc) with
      | none => rfl
      | some p =>
        obtain ⟨g1, g2, _⟩ := (rfindPos_spec '.' (s.take mc)).2 p hr2
        exact absurd g2 (hnodot p g1)
    simp only [truncate_search_results, if_neg hnle, hr]

/-- Witness for the amended C9 characterization: an 11-character string
with budget 5 is cut at the dot at index 4, since the float threshold
5 * 0.7 = 3.5 is exceeded. -/
theorem truncate_characterization_witness :
    truncate_search_results c9winput 5 = ("abcd.").toList := by
  have h := (((truncate_characterization c9winput 5).2.1 (by decide) 4 (by decide)).1
    (by decide)).1
  rw [h]
  rfl

theorem truncate_eq_cut (s : Text) (mc p : Nat) (hnle : ¬ s.length ≤ mc)
    (hr : rfindPos '.' (s.take mc) = some p) (hgt : gtPoint7 p mc = true) :
    truncate_search_results s mc = (s.take mc).take (p + 1) := by
  simp only [truncate_search_results, if_neg hnle, hr, hgt, if_true]

theorem truncate_claim_eq_ellipsis (s : Text) (mc p : Nat) (hnle : ¬ s.length ≤ mc)
    (hr : rfindPos '.' (s.take mc) = some p) (hgt : ¬ 7 * mc < 10 * p) :
    truncate_search_results_claim s mc = s.take mc ++ ellipsis := by
  simp only [truncate_search_results_claim, if_neg hnle, hr, if_neg hgt]

theorem bigS_length : bigS.length = 2572 := by
  rw [bigS, List.length_append, List.length_replicate, List.length_cons,
    List.length_replicate]

theorem bigS_window :
    bigS.take 2570 = List.replicate 1799 'a' ++ '.' :: List.replicate 770 'b' := by
  rw [bigS, List.take_append_eq_append_take, List.length_replicate]
  rw [List.take_of_length_le (by rw [List.length_replicate]; omega)]
  have h1 : (2570 : Nat) - 1799 = 770 + 1 := by norm_num
  rw [h1, List.take_succ_cons, List.take_replicate]
  have h2 : min 770 772 = 770 := by norm_num
  rw [h2]

theorem bigS_lastPeriod : lastPeriodAt (bigS.take 2570) 1799 := by
  rw [bigS_window]
  refine ⟨?_, ?_, ?_⟩
  · rw [List.length_append, List.length_replicate, List.length_cons, List.length_replicate]
    omega
  · rw [List.getD_append_right _ _ _ _ (by rw [List.length_replicate])]
    rw [List.length_replicate]
    have h0 : (1799 : Nat) - 1799 = 0 := by norm_num
    rw [h0, List.getD_cons_zero]
  · intro q hq hpq
    rw [List.length_append, List.length_replicate, List.length_cons,
      List.length_replicate] at hq
    rw [List.getD_append_right _ _ _ _ (by rw [List.length_replicate]; omega)]
    rw [List.length_replicate]
    have h2 : q - 1799 = (q - 1800) + 1 := by omega
    rw [h2, List.getD_cons_succ]
    have h3 : q - 1800 < (List.replicate 770 'b').length := by
      rw [List.length_replicate]
      omega
    rw [List.getD_eq_getElem _ _ h3, List.getElem_replicate]
    decide

/-- C9 counterexample: with budget 2570 and a window whose last dot sits at
index 1799, the source's float comparison `1799 > 2570 * 0.7` is true
because the double product rounds to 1798.9999999999998, so the code takes
the sentence cut, although index 1799 does not lie strictly within the
final 30% of the window (10 * 1799 = 7 * 2570 exactly); the claim-faithful
exact rule takes the ellipsis branch, so the two results differ. -/
theorem truncate_threshold_cex :
    truncate_search_results bigS 2570 = List.replicate 1799 'a' ++ ['.'] ∧
    truncate_search_results_claim bigS 2570 = bigS.take 2570 ++ ellipsis ∧
    ¬ (7 * 2570 < 10 * 1799) ∧
    truncate_search_results bigS 2570 ≠ truncate_search_results_claim bigS 2570 := by
  have hnle : ¬ bigS.length ≤ 2570 := by
    rw [bigS_length]
    omega
  have hr : rfindPos '.' (bigS.take 2570) = some 1799 :=
    rfindPos_of_lastPeriodAt _ _ bigS_lastPeriod
  have hgt : gtPoint7 1799 2570 = true := by decide
  have hcode : truncate_search_results bigS 2570 = List.replicate 1799 'a' ++ ['.'] := by
    rw [truncate_eq_cut bigS 2570 1799 hnle hr hgt]
    rw [bigS_window, List.take_append_eq_append_take, List.length_replicate]
    rw [List.take_of_length_le (by rw [List.length_replicate]; omega)]
    have h1 : (1800 : Nat) - 1799 = 0 + 1 := by norm_num
    rw [h1, List.take_succ_cons, List.take_replicate]
    have h2 : min 0 770 = 0 := by norm_num
    rw [h2]
    rfl
  have hclaim : truncate_search_results_claim bigS 2570 = bigS.take 2570 ++ ellipsis := by
    have hexact : ¬ ((7 : Nat) * 2570 < 10 * 1799) := by norm_num
    exact truncate_claim_eq_ellipsis bigS 2570 1799 hnle hr hexact
  refine ⟨hcode, hclaim, by norm_num, ?_⟩
  intro heq
  rw [hcode, hclaim] at heq
  have hlen := congrArg List.length heq
  rw [List.length_append, List.length_append, List.length_replicate,
    List.length_take, bigS_length] at hlen
  have he : ellipsis.length = 3 := rfl
  have hd : (['.'] : Text).length = 1 := rfl
  have hm : min 2570 2572 = 2570 := by norm_num
  rw [he, hd, hm] at hlen
  omega
